/-
Verification of the QYRA proof-of-work puzzle core (github.com/marcofortina/qyra).

This file gives a shallow embedding of the library's core data model and
operations, translated from the C++ sources:

  * `Pack12`                  from src/utils.cpp
  * `CStream`                 from src/stream.h
  * `CGraph.AddEdge`, `CGraph.UpdateGraphFromData`, `CGraph.Generate`,
    `CGraph.Validate`         from src/graph.cpp
  * `CPath.DFSHelper`, `CPath.FindDFS`, `CPath.IsValid`, `CPath.GetHash`,
    `CPath.Validate`          from src/path.cpp
  * `CQYRA.Mine`, `CQYRA.Validate`, `Assemble` from src/qyra.cpp

Bytes are modelled as `Nat` (the C++ containers are `std::vector<unsigned
char>`, so stored values are < 256; theorems carry that bound as a hypothesis
where it matters).  Machine arithmetic uses explicit masks (`&&& 0xFFF` etc.)
mirroring the source.

The Kyber-768 KEM, AES-256-CBC cipher and BLAKE3 hash are external libraries
(liboqs, OpenSSL, blake3), which the spec explicitly treats as abstract
collaborators; they are modelled as an abstract `CryptoModel` whose round-trip
and size laws appear as explicit hypotheses of the theorems that need them.

The adjacency matrix (`std::vector<std::bitset<MAX_NODES>>` in the source) is
modelled sparsely as the list of set bits in insertion order: entry `(f, t)`
means row `f` has bit `t` set.  `row m f` recovers the set of bits of row `f`;
the representation allows a row to hold several bits, so the out-degree
invariant remains a genuine theorem about the derivation.
-/
import Mathlib

/-- `MAX_NODES` from src/graph.h. -/
def MAX_NODES : Nat := 4096

/-- `ENC_SIZE` from src/include/common.h. -/
def ENC_SIZE : Nat := 144

/-- `IV_SIZE` from src/include/common.h. -/
def IV_SIZE : Nat := 16

/-- `CIPHERTEXT_SIZE` from src/include/common.h. -/
def CIPHERTEXT_SIZE : Nat := 1088

/-- `HASH_SIZE` from src/include/common.h. -/
def HASH_SIZE : Nat := 32

/-- `TOTAL_SIZE = ENC_SIZE + IV_SIZE + CIPHERTEXT_SIZE` from src/include/common.h. -/
def TOTAL_SIZE : Nat := ENC_SIZE + IV_SIZE + CIPHERTEXT_SIZE

/-- `SOLUTION_SIZE = TOTAL_SIZE + HASH_SIZE` from src/include/common.h. -/
def SOLUTION_SIZE : Nat := TOTAL_SIZE + HASH_SIZE

/-- Body of the packing loop of `Pack12` (src/utils.cpp): each 3-byte group is
combined into a 24-bit value from which the low and high 12-bit halves are
extracted.  The input is already padded to a multiple of 3, so the catch-all
case only ever sees `[]`. -/
def Pack12Loop : List Nat → List Nat
  | b0 :: b1 :: b2 :: rest =>
    let value := b0 ||| (b1 <<< 8) ||| (b2 <<< 16)
    (value &&& 0xFFF) :: ((value >>> 12) &&& 0xFFF) :: Pack12Loop rest
  | _ => []

/-- `Pack12` from src/utils.cpp: zero-pad the input to a multiple of 3 bytes,
then map each 3-byte group to two 12-bit values. -/
def Pack12 (input : List Nat) : List Nat :=
  Pack12Loop (input ++ List.replicate ((3 - input.length % 3) % 3) 0)

/-- Modelled from the spec: the per-group formulas of §4.5 as written there and
in claim C5, `low = b0 | ((b1 & 0x0F) << 8)`, `high = (b1 >> 4) | (b2 << 4)`.
This is the reference rendering to be compared against `Pack12Loop`. -/
def Pack12SpecLoop : List Nat → List Nat
  | b0 :: b1 :: b2 :: rest =>
    (b0 ||| ((b1 &&& 0xF) <<< 8)) :: ((b1 >>> 4) ||| (b2 <<< 4)) :: Pack12SpecLoop rest
  | _ => []

/-- Modelled from the spec (§4.5): zero-pad to a multiple of 3, then apply the
spec's per-group formulas. -/
def Pack12Spec (input : List Nat) : List Nat :=
  Pack12SpecLoop (input ++ List.replicate ((3 - input.length % 3) % 3) 0)

/-- Sparse adjacency matrix: `(f, t)` means row `f` has bit `t` set, in
insertion order. -/
abbrev AdjMatrix : Type := List (Nat × Nat)

/-- The set bits of row `f`, in insertion order.  For matrices produced by
`CGraph.AddEdge` each row holds at most one bit, so this order coincides with
the ascending bit order in which `std::bitset` iteration visits set bits. -/
def row (m : AdjMatrix) (f : Nat) : List Nat :=
  (List.filter (fun e => e.1 == f) m).map (fun e => e.2)

/-- `CGraph::AddEdge` from src/graph.cpp: fails when an index is out of
bounds; a no-op (reported as success) when row `from` is already non-empty;
otherwise sets exactly bit `to` of row `from`. -/
def CGraph.AddEdge (m : AdjMatrix) (f t : Nat) : Option AdjMatrix :=
  if MAX_NODES ≤ f then none
  else if MAX_NODES ≤ t then none
  else if row m f ≠ [] then some m
  else some (m ++ [(f, t)])

/-- `std::unordered_set::insert` on the visited set: only membership is ever
queried, so the set is modelled as a duplicate-free list. -/
def insertVisited (x : Nat) (vis : List Nat) : List Nat :=
  if x ∈ vis then vis else x :: vis

/-- The edge loop of `CGraph::UpdateGraphFromData` (src/graph.cpp): walk the
12-bit values over adjacent pairs `(from, to)`; when `from ≠ to` and `to` is
not visited, call `AddEdge` (failure aborts) and insert `from` into the
visited set — even when `AddEdge` was a first-write-wins no-op. -/
def UpdateGraphLoop : List Nat → AdjMatrix → List Nat → Option AdjMatrix
  | f :: t :: rest, m, vis =>
    if f ≠ t ∧ t ∉ vis then
      match CGraph.AddEdge m f t with
      | none => none
      | some m' => UpdateGraphLoop (t :: rest) m' (insertVisited f vis)
    else UpdateGraphLoop (t :: rest) m vis
  | _, m, _ => some m

/-- `CGraph::UpdateGraphFromData` from src/graph.cpp.  The matrix is cleared
first (`Clear()`), so derivation always starts from the empty matrix; the
failure cases (empty input, fewer than 2 packed values, out-of-range index)
yield `none`.  On the failure paths the C++ object keeps the cleared (or, for
the unreachable out-of-range case, partially built) matrix; no caller reads
the matrix after a failed derivation, so the result is modelled as `none`. -/
def CGraph.UpdateGraphFromData (data : List Nat) : Option AdjMatrix :=
  if data = [] then none
  else
    let edges := Pack12 data
    if edges.length < 2 then none
    else UpdateGraphLoop edges [] []

/-- Modelled from the spec: one pass of the §4.6 reference derivation
algorithm, exactly as the spec words it — skip if `from == to`, skip if
`to ∈ visited`, skip if row `from` is already non-empty, otherwise set row
`from`'s bit `to` and insert `from` into `visited`. -/
def SpecDeriveLoop : List Nat → AdjMatrix → List Nat → AdjMatrix
  | f :: t :: rest, m, vis =>
    if f = t then SpecDeriveLoop (t :: rest) m vis
    else if t ∈ vis then SpecDeriveLoop (t :: rest) m vis
    else if row m f ≠ [] then SpecDeriveLoop (t :: rest) m vis
    else SpecDeriveLoop (t :: rest) (m ++ [(f, t)]) (f :: vis)
  | _, m, _ => m

/-- Modelled from the spec (§4.6): derive the matrix from the 12-bit sequence
`V`; fail when `V` has fewer than 2 elements. -/
def SpecDeriveMatrix (V : List Nat) : Option AdjMatrix :=
  if V.length < 2 then none else some (SpecDeriveLoop V [] [])

/-- `CStream` from src/stream.h: a byte buffer with a read cursor. -/
structure CStream where
  vchData : List Nat
  nPos : Nat
deriving DecidableEq

/-- `CStream::operator<<(const std::vector<unsigned char>&)`: append bytes. -/
def CStream.appendBytes (s : CStream) (input : List Nat) : CStream :=
  { s with vchData := s.vchData ++ input }

/-- `CStream::operator<<(uint16_t)`: append a 16-bit value in little-endian
byte order (the written value is a `uint16_t`, hence the `% 65536`). -/
def CStream.appendU16 (s : CStream) (value : Nat) : CStream :=
  { s with vchData := s.vchData ++ [value % 65536 % 256, value % 65536 / 256] }

/-- `CStream::operator>>(std::vector<unsigned char>&)` from src/stream.h:
read `n` bytes (`n` = the size of the destination vector) at the cursor,
advancing it; fails when the read would overrun the buffer. -/
def CStream.readVec (s : CStream) (n : Nat) : Option (List Nat × CStream) :=
  if s.vchData.length < s.nPos + n then none
  else some ((s.vchData.drop s.nPos).take n, { s with nPos := s.nPos + n })

/-- `CStream::operator>>(uint8_t*)` from src/stream.h, modelled bit-for-bit
including its use of `sizeof(output)`: on a 64-bit target the guard tests
`sizeof(uint8_t*)` = 8 bytes, the copy transfers every byte from the cursor to
the end of the buffer, and the cursor advances by 8. -/
def CStream.readRaw (s : CStream) : Option (List Nat × CStream) :=
  if s.vchData.length < s.nPos + 8 then none
  else some (s.vchData.drop s.nPos, { s with nPos := s.nPos + 8 })

/-- The byte serialisation used by `CPath::GetHash` and `CPath::ToString`
(src/path.cpp): each node, a `uint16_t`, is appended little-endian. -/
def serLE (nodes : List Nat) : List Nat :=
  nodes.flatMap (fun n => [n % 65536 % 256, n % 65536 / 256])

/-- Modelled from the spec: the external cryptographic primitives (§4.1-§4.3,
from liboqs, OpenSSL and blake3, outside this repository).  The randomness a
primitive draws in one call (KEM encapsulation, IV generation) is folded into
the model, so each field is one determinised run of the primitive; `none`
models a primitive failure.  Round-trip and size laws (§8) are stated as
hypotheses of the theorems that need them. -/
structure CryptoModel where
  /-- `OQS_KEM_kyber_768_encaps`: public key to (ciphertext, shared secret). -/
  encaps : List Nat → Option (List Nat × List Nat)
  /-- `OQS_KEM_kyber_768_decaps`: (ciphertext, secret key) to shared secret. -/
  decaps : List Nat → List Nat → Option (List Nat)
  /-- AES-256-CBC encryption: (message, key) to (ciphertext, fresh IV). -/
  encrypt : List Nat → List Nat → Option (List Nat × List Nat)
  /-- AES-256-CBC decryption: (ciphertext, key, iv) to message. -/
  decrypt : List Nat → List Nat → List Nat → Option (List Nat)
  /-- `CHasher::BLAKE3`: bytes to digest. -/
  blake3 : List Nat → List Nat

/-- `CCryptoData` from src/include/qyra.h. -/
structure CCryptoData where
  enc : List Nat
  iv : List Nat
  ciphertext : List Nat
  hash : List Nat
deriving DecidableEq

/-- `CSolutionData` from src/include/qyra.h: `Clear()` clears only the
`solution` vector, not `cryptoData`. -/
structure CSolutionData where
  cryptoData : CCryptoData
  solution : List Nat
deriving DecidableEq

/-- `Assemble` from src/qyra.cpp: stream the four components together. -/
def Assemble (cryptoData : CCryptoData) : List Nat :=
  ((((CStream.mk [] 0).appendBytes cryptoData.enc).appendBytes
      cryptoData.iv).appendBytes cryptoData.ciphertext).appendBytes
    cryptoData.hash |>.vchData

/-- The state of a `CGraph` object (src/graph.h). -/
structure CGraph where
  adjacencyMatrix : AdjMatrix
  header : List Nat
  nonce : List Nat
  enc : List Nat
  iv : List Nat
  ciphertext : List Nat
  publicKey : List Nat
  secretKey : List Nat
  nThreads : Nat
deriving DecidableEq

/-- `CGraph::Size` from src/graph.cpp: `adjacencyMatrix.size()` squared.  The
row vector is created with, and cleared back to, exactly `MAX_NODES` rows, so
the value is the constant `MAX_NODES * MAX_NODES`. -/
def CGraph.Size (_g : CGraph) : Nat := MAX_NODES * MAX_NODES

/-- `CGraph::Generate` from src/graph.cpp: build `header ‖ nonce`, KEM
encapsulate, encrypt, then derive the matrix from the encrypted bytes.  On the
KEM/cipher failure paths the C++ code zeroises or leaves scratch buffers; no
claim reads those buffers after a failure, and the member fields written on
the success path are modelled exactly. -/
def CGraph.Generate (cm : CryptoModel) (g : CGraph) : Bool × CGraph :=
  match cm.encaps g.publicKey with
  | none => (false, g)
  | some (ct, ss) =>
    let g1 := { g with ciphertext := ct }
    match cm.encrypt (g.header ++ g.nonce) ss with
    | none => (false, g1)
    | some (e, i) =>
      let g2 := { g1 with enc := e, iv := i }
      match CGraph.UpdateGraphFromData e with
      | none => (false, { g2 with adjacencyMatrix := [] })
      | some m => (true, { g2 with adjacencyMatrix := m })

/-- `CGraph::Validate` from src/graph.cpp: check the blob size, split it into
`(enc, iv, ciphertext)` via stream reads (the ciphertext read is the
raw-pointer overload, which copies every remaining byte), decapsulate,
decrypt, compare against `header ‖ nonce`, then re-derive the matrix.  The
stream-read `none` branches are unreachable because the blob length was
checked; in C++ an overrun would throw out of the function. -/
def CGraph.Validate (cm : CryptoModel) (g : CGraph) (vch : List Nat) :
    Bool × CGraph :=
  if vch = [] then (false, g)
  else if vch.length ≠ TOTAL_SIZE then (false, g)
  else
    match (CStream.mk vch 0).readVec ENC_SIZE with
    | none => (false, g)
    | some (e, s1) =>
      match s1.readVec IV_SIZE with
      | none => (false, g)
      | some (i, s2) =>
        match s2.readRaw with
        | none => (false, g)
        | some (ct, _) =>
          let g1 := { g with enc := e, iv := i, ciphertext := ct }
          match cm.decaps ct g.secretKey with
          | none => (false, g1)
          | some ss =>
            match cm.decrypt e ss i with
            | none => (false, g1)
            | some dec =>
              if dec ≠ g.header ++ g.nonce then (false, g1)
              else
                match CGraph.UpdateGraphFromData e with
                | none => (false, { g1 with adjacencyMatrix := [] })
                | some m => (true, { g1 with adjacencyMatrix := m })

/-- `CPath::DFSHelper` from src/path.cpp, with the shared `longestPath`
accumulator threaded through.  The mutable `visited` / `currentPath` state is
restored on backtrack in the C++ code, so each neighbour recursion receives
the same `visited` and `currentPath`.  The C++ recursion needs no fuel; here
the fuel only bounds the recursion depth, and `MAX_NODES + 1` is enough for
every reachable call (the visited marking makes all nodes on a branch
distinct). -/
def CPath.DFSHelper (m : AdjMatrix) : Nat → Nat → List Nat → List Nat →
    List Nat → List Nat
  | 0, _, _, _, longest => longest
  | fuel + 1, node, visited, currentPath, longest =>
    let visited' := node :: visited
    let currentPath' := currentPath ++ [node]
    let neighbors := row m node
    let longest' := neighbors.foldl
      (fun acc nb =>
        if nb ∈ visited' then acc
        else CPath.DFSHelper m fuel nb visited' currentPath' acc)
      longest
    if neighbors = [] then
      if longest'.length < currentPath'.length then currentPath' else longest'
    else longest'

/-- The sequence of leaf comparisons `CPath::DFSHelper` performs against the
mutex-protected `longestPath`, in program order.  `CPath.DFSHelper` is the
fold of `updateLongest` over this sequence (`DFSHelper_eq_foldl`). -/
def CPath.DFSLeaves (m : AdjMatrix) : Nat → Nat → List Nat → List Nat →
    List (List Nat)
  | 0, _, _, _ => []
  | fuel + 1, node, visited, currentPath =>
    let visited' := node :: visited
    let currentPath' := currentPath ++ [node]
    let neighbors := row m node
    let fromNbrs := neighbors.foldl
      (fun acc nb =>
        if nb ∈ visited' then acc
        else acc ++ CPath.DFSLeaves m fuel nb visited' currentPath')
      []
    if neighbors = [] then fromNbrs ++ [currentPath'] else fromNbrs

/-- One comparison against the shared longest path, under the mutex: replace
only when strictly longer (src/path.cpp, `currentPath.size() >
longestPath.size()`). -/
def updateLongest (longest candidate : List Nat) : List Nat :=
  if longest.length < candidate.length then candidate else longest

/-- The body of the start-node loop of `CPath::FindDFS` (src/path.cpp): skip
start nodes whose row is empty, otherwise run the DFS with a fresh visited
vector and empty current path, threading the shared longest path. -/
def CPath.FindDFSStep (m : AdjMatrix) (longest : List Nat) (start : Nat) :
    List Nat :=
  if row m start = [] then longest
  else CPath.DFSHelper m (MAX_NODES + 1) start [] [] longest

/-- `CPath::FindDFS` from src/path.cpp with the default single thread
(`nThreads = 1`): walk every start node in ascending order. -/
def CPath.FindDFS (m : AdjMatrix) : List Nat :=
  (List.range MAX_NODES).foldl (CPath.FindDFSStep m) []

/-- `CPath::GetHash` from src/path.cpp: BLAKE3 of the little-endian 16-bit
serialisation of the node sequence. -/
def CPath.GetHash (cm : CryptoModel) (nodes : List Nat) : List Nat :=
  cm.blake3 (serLE nodes)

/-- The edge checks of `CPath::IsValid` (src/path.cpp). -/
def CPath.EdgesValid (m : AdjMatrix) : List Nat → Bool
  | f :: t :: rest =>
    if MAX_NODES ≤ f ∨ MAX_NODES ≤ t ∨ t ∉ row m f then false
    else CPath.EdgesValid m (t :: rest)
  | _ => true

/-- `CPath::IsValid` from src/path.cpp: an empty path is invalid; otherwise
every consecutive pair must be an in-range edge of the graph. -/
def CPath.IsValid (nodes : List Nat) (m : AdjMatrix) : Bool :=
  if nodes = [] then false else CPath.EdgesValid m nodes

/-- `CPath::Validate` from src/path.cpp: re-run `FindDFS` on the graph (which
overwrites the stored nodes — returned as the second component) and compare
the hash of the found path with the expected one. -/
def CPath.Validate (cm : CryptoModel) (hash : List Nat) (m : AdjMatrix) :
    Bool × List Nat :=
  let foundPath := CPath.FindDFS m
  (decide (CPath.GetHash cm foundPath = hash), foundPath)

/-- The state of a `CQYRA` object (src/include/qyra.h): the owned graph and
path plus the public solution holder. -/
structure CQYRA where
  graph : CGraph
  path : List Nat
  solution : CSolutionData
deriving DecidableEq

/-- `CQYRA::Mine` from src/qyra.cpp: generate the graph, find the longest
path, check it, then clear the old solution, fill `cryptoData`, verify the
components are non-empty, and store the assembled solution bytes. -/
def CQYRA.Mine (cm : CryptoModel) (st : CQYRA) : Bool × CQYRA :=
  match CGraph.Generate cm st.graph with
  | (false, g) => (false, { st with graph := g })
  | (true, g) =>
    if CGraph.Size g = 0 then (false, { st with graph := g })
    else
      let foundPath := CPath.FindDFS g.adjacencyMatrix
      let st1 := { st with graph := g, path := foundPath }
      if foundPath.length = 0 then (false, st1)
      else if ¬ CPath.IsValid foundPath g.adjacencyMatrix then (false, st1)
      else
        let cd : CCryptoData :=
          { enc := g.enc, iv := g.iv, ciphertext := g.ciphertext
          , hash := CPath.GetHash cm foundPath }
        let st2 := { st1 with solution := { cryptoData := cd, solution := [] } }
        if cd.enc = [] ∨ cd.iv = [] ∨ cd.ciphertext = [] ∨ cd.hash = [] then
          (false, st2)
        else
          let sol := Assemble cd
          let st3 := { st1 with solution := { cryptoData := cd, solution := sol } }
          if sol.length = 0 then (false, st3) else (true, st3)

/-- `CQYRA::Validate` from src/qyra.cpp: check the solution size, split off
the graph blob and the path hash, validate the graph, then validate the path
against the hash.  The stream-read `none` branches are unreachable after the
size check. -/
def CQYRA.Validate (cm : CryptoModel) (st : CQYRA) (vch : List Nat) :
    Bool × CQYRA :=
  if vch.length < SOLUTION_SIZE then (false, st)
  else
    match (CStream.mk vch 0).readVec TOTAL_SIZE with
    | none => (false, st)
    | some (graphData, s1) =>
      match s1.readVec HASH_SIZE with
      | none => (false, st)
      | some (pathHash, _) =>
        match CGraph.Validate cm st.graph graphData with
        | (false, g) => (false, { st with graph := g })
        | (true, g) =>
          let r := CPath.Validate cm pathHash g.adjacencyMatrix
          (r.1, { st with graph := g, path := r.2 })

/-- `CQYRA::IsValid` from src/qyra.cpp. -/
def CQYRA.IsValid (st : CQYRA) : Bool :=
  CPath.IsValid st.path st.graph.adjacencyMatrix

/-- `[a, b)` as a list, ascending: the iteration space of one worker thread in
`CPath::FindDFS`. -/
def rangeFromTo (a b : Nat) : List Nat :=
  (List.range (b - a)).map (a + ·)

/-- The leaf comparisons one start node contributes in `CPath::FindDFS`
(src/path.cpp): nothing when its row is empty (the loop `continue`s),
otherwise the comparison sequence of the DFS rooted there. -/
def StartTrace (m : AdjMatrix) (start : Nat) : List (List Nat) :=
  if row m start = [] then []
  else CPath.DFSLeaves m (MAX_NODES + 1) start [] []

/-- `nodesPerThread = totalNodes / nThreads` from src/path.cpp. -/
def nodesPerThread (nThreads : Nat) : Nat := MAX_NODES / nThreads

/-- The start-node range of worker `t` (src/path.cpp): `[t*npt, (t+1)*npt)`,
with the last worker absorbing the remainder up to `MAX_NODES`. -/
def threadEndNode (nThreads t : Nat) : Nat :=
  if t + 1 = nThreads then MAX_NODES
  else t * nodesPerThread nThreads + nodesPerThread nThreads

/-- The ordered sequence of leaf comparisons worker `t` submits to the mutex
during a parallel `CPath::FindDFS` run.  The graph is read-only and `visited`
and `currentPath` are worker-private, so this sequence does not depend on the
schedule; only the interleaving of the comparisons does. -/
def ThreadTrace (m : AdjMatrix) (nThreads t : Nat) : List (List Nat) :=
  (rangeFromTo (t * nodesPerThread nThreads) (threadEndNode nThreads t)).flatMap
    (StartTrace m)

/-- The per-worker comparison sequences of a parallel `CPath::FindDFS` run
with `nThreads` workers. -/
def ThreadTraces (m : AdjMatrix) (nThreads : Nat) : List (List (List Nat)) :=
  (List.range nThreads).map (ThreadTrace m nThreads)

/-- An interleaving of several sequences that preserves each sequence's own
order: the possible serialisation orders the `longestPath` mutex can impose on
the workers' comparisons. -/
inductive IsInterleaving : List (List (List Nat)) → List (List Nat) → Prop
  | nil (ts : List (List (List Nat))) (h : ∀ t ∈ ts, t = []) :
      IsInterleaving ts []
  | step (ts : List (List (List Nat))) (i : Nat) (c : List Nat)
      (tl : List (List Nat)) (rest : List (List Nat))
      (hget : ts.get? i = some (c :: tl))
      (hrest : IsInterleaving (ts.set i tl) rest) :
      IsInterleaving ts (c :: rest)

/-- Folding the mutex-protected comparisons in their serialisation order. -/
def runUpdates (candidates : List (List Nat)) (init : List Nat) : List Nat :=
  candidates.foldl updateLongest init

/-- `out` is a possible result of a parallel `CPath::FindDFS` run on `m` with
`nThreads` workers: some admissible serialisation of the workers' comparisons
produces it. -/
def ParDFSResult (m : AdjMatrix) (nThreads : Nat) (out : List Nat) : Prop :=
  ∃ s, IsInterleaving (ThreadTraces m nThreads) s ∧ out = runUpdates s []

/-- The edge relation of an adjacency matrix. -/
def Edge (m : AdjMatrix) (a b : Nat) : Prop := (a, b) ∈ m

/-- The position of the (unique) entry sourced at `a` in insertion order. -/
def rankOf (m : AdjMatrix) (a : Nat) : Nat :=
  m.findIdx (fun e => e.1 == a)

/-- A concrete crypto model for witnesses: sizes follow §3 (KEM ciphertext
1088 bytes, shared secret 32, IV 16, PKCS#7 padding to 144, 32-byte digest)
and encryption appends the 4 padding bytes so that decryption can strip them. -/
def cmTest : CryptoModel :=
  { encaps := fun _ => some (List.replicate 1088 7, List.replicate 32 5)
  , decaps := fun _ _ => some (List.replicate 32 5)
  , encrypt := fun msg _ => some (msg ++ [4, 4, 4, 4], List.replicate 16 9)
  , decrypt := fun e _ _ => some (e.take 140)
  , blake3 := fun x => (x ++ List.replicate 32 0).take 32 }

/-- A crypto model whose KEM encapsulation fails, for exercising the
`Generate` failure path. -/
def cmFail : CryptoModel :=
  { encaps := fun _ => none
  , decaps := fun _ _ => none
  , encrypt := fun _ _ => none
  , decrypt := fun _ _ _ => none
  , blake3 := fun x => x }

/-- A crypto model with an injective hash, for the empty-graph theorem. -/
def cmId : CryptoModel :=
  { encaps := fun _ => none
  , decaps := fun _ _ => none
  , encrypt := fun _ _ => none
  , decrypt := fun _ _ _ => none
  , blake3 := fun x => x }

/-- A concrete 108-byte header whose first packed values are `1, 2`. -/
def headerTest : List Nat := [1, 32, 0] ++ List.replicate 105 0

/-- A concrete puzzle state: fresh instance, test keys, `headerTest` and an
all-zero 32-byte nonce. -/
def stTest : CQYRA :=
  { graph :=
    { adjacencyMatrix := [], header := headerTest
    , nonce := List.replicate 32 0, enc := [], iv := [], ciphertext := []
    , publicKey := [1], secretKey := [2], nThreads := 1 }
  , path := [], solution := ⟨⟨[], [], [], []⟩, []⟩ }

/-- The matrix `UpdateGraphFromData` derives from `stTest`'s encrypted bytes
under `cmTest`: the single chain `1 → 2 → 0 → 64 → 1028`. -/
def mTest : AdjMatrix := [(1, 2), (2, 0), (0, 64), (64, 1028)]

/-- `stTest` with a non-empty stored solution, as left behind by an earlier
successful `Mine()`. -/
def stPrev : CQYRA :=
  { stTest with solution := ⟨⟨[], [], [], []⟩, [9]⟩ }

/-- Nine bytes that pack to `[1, 2, 1, 3000, 3001, 1]` and hence derive two
disjoint chains `1 → 2` and `3000 → 3001` of equal length, the second lying in
the second worker's range when `nThreads = 2`. -/
def tieData : List Nat := [0x01, 0x20, 0x00, 0x01, 0x80, 0xBB, 0xB9, 0x1B, 0x00]

/-- The two-chain matrix derived from `tieData`. -/
def mTie : AdjMatrix := [(1, 2), (3000, 3001)]

/-- The encrypted bytes `cmTest` produces for `stTest`: plaintext plus the
4 PKCS#7 padding bytes. -/
def encTest : List Nat := headerTest ++ List.replicate 32 0 ++ [4, 4, 4, 4]

/-- The graph state after a successful `Generate` on `stTest` under `cmTest`. -/
def gTest : CGraph :=
  { adjacencyMatrix := mTest, header := headerTest
  , nonce := List.replicate 32 0, enc := encTest
  , iv := List.replicate 16 9, ciphertext := List.replicate 1088 7
  , publicKey := [1], secretKey := [2], nThreads := 1 }

/-- The longest path of `mTest`: the full chain. -/
def pathTest : List Nat := [1, 2, 0, 64, 1028]

/-- Its hash under `cmTest`. -/
def hashTest : List Nat := cmTest.blake3 (serLE pathTest)

/-- The solution bytes `Mine` stores for `stTest` under `cmTest`. -/
def solTest : List Nat :=
  encTest ++ List.replicate 16 9 ++ List.replicate 1088 7 ++ hashTest

/-- The full puzzle state after the successful `Mine` on `stTest`. -/
def stMined : CQYRA :=
  { graph := gTest, path := pathTest
  , solution :=
    { cryptoData :=
      ⟨encTest, List.replicate 16 9, List.replicate 1088 7, hashTest⟩
    , solution := solTest } }

lemma row_nil (x : Nat) : row [] x = [] := rfl

lemma row_cons (f t x : Nat) (m : AdjMatrix) :
    row ((f, t) :: m) x = if f = x then t :: row m x else row m x := by
  by_cases h : f = x <;> simp [row, List.filter_cons, h]

lemma row_append (m₁ m₂ : AdjMatrix) (x : Nat) :
    row (m₁ ++ m₂) x = row m₁ x ++ row m₂ x := by
  simp [row, List.filter_append]

lemma row_snoc (m : AdjMatrix) (f t x : Nat) :
    row (m ++ [(f, t)]) x = row m x ++ if f = x then [t] else [] := by
  by_cases h : f = x <;> simp [row, List.filter_append, List.filter_cons, h]

lemma mem_row (m : AdjMatrix) (a b : Nat) : b ∈ row m a ↔ (a, b) ∈ m := by
  simp only [row, List.mem_map, List.mem_filter, beq_iff_eq]
  constructor
  · rintro ⟨⟨p, q⟩, ⟨hm, he⟩, rfl⟩
    simp only at he
    subst he
    exact hm
  · intro hm
    exact ⟨(a, b), ⟨hm, rfl⟩, rfl⟩

lemma row_eq_nil_iff (m : AdjMatrix) (a : Nat) :
    row m a = [] ↔ ∀ b, (a, b) ∉ m := by
  constructor
  · intro h b hb
    have hmem := (mem_row m a b).mpr hb
    rw [h] at hmem
    exact absurd hmem (List.not_mem_nil b)
  · intro h
    cases hr : row m a with
    | nil => rfl
    | cons b l =>
      have hmem : b ∈ row m a := by rw [hr]; exact List.mem_cons_self b l
      exact absurd ((mem_row m a b).mp hmem) (h b)

lemma rangeFromTo_zero (n : Nat) : rangeFromTo 0 n = List.range n := by
  simp [rangeFromTo]

lemma mem_rangeFromTo (a b x : Nat) : x ∈ rangeFromTo a b ↔ a ≤ x ∧ x < b := by
  simp only [rangeFromTo, List.mem_map, List.mem_range]
  constructor
  · rintro ⟨k, hk, rfl⟩
    omega
  · intro h
    exact ⟨x - a, by omega, by omega⟩

lemma rangeFromTo_append (a b c : Nat) (h1 : a ≤ b) (h2 : b ≤ c) :
    rangeFromTo a b ++ rangeFromTo b c = rangeFromTo a c := by
  unfold rangeFromTo
  have h3 : c - a = (b - a) + (c - b) := by omega
  rw [h3, List.range_add, List.map_append, List.map_map]
  congr 1
  have h4 : ((a + ·) ∘ ((b - a) + ·)) = (b + ·) := by
    funext k
    simp only [Function.comp_apply]
    omega
  rw [h4]

lemma foldl_FindDFSStep_skip (m : AdjMatrix) (l : List Nat) (init : List Nat)
    (h : ∀ s ∈ l, row m s = []) :
    l.foldl (CPath.FindDFSStep m) init = init := by
  induction l generalizing init with
  | nil => rfl
  | cons s l ih =>
    rw [List.foldl_cons, CPath.FindDFSStep, if_pos (h s (List.mem_cons_self s l))]
    exact ih init (fun x hx => h x (List.mem_cons_of_mem s hx))

lemma flatMap_StartTrace_skip (m : AdjMatrix) (l : List Nat)
    (h : ∀ s ∈ l, row m s = []) :
    l.flatMap (StartTrace m) = [] := by
  induction l with
  | nil => rfl
  | cons s l ih =>
    rw [List.flatMap_cons, StartTrace, if_pos (h s (List.mem_cons_self s l)),
      List.nil_append]
    exact ih (fun x hx => h x (List.mem_cons_of_mem s hx))

lemma testBit_byte_false (b i : Nat) (hb : b < 256) (hi : 8 ≤ i) :
    b.testBit i = false := by
  apply Nat.testBit_lt_two_pow
  calc b < 256 := hb
    _ = 2 ^ 8 := by norm_num
    _ ≤ 2 ^ i := Nat.pow_le_pow_right (by norm_num) hi

lemma pack_low (b0 b1 b2 : Nat) (h0 : b0 < 256) :
    (b0 ||| (b1 <<< 8) ||| (b2 <<< 16)) &&& 0xFFF = b0 ||| ((b1 &&& 0xF) <<< 8) := by
  have e12 : (0xFFF : Nat) = 2 ^ 12 - 1 := by norm_num
  have e4 : (0xF : Nat) = 2 ^ 4 - 1 := by norm_num
  apply Nat.eq_of_testBit_eq
  intro i
  rw [e12, e4]
  simp only [Nat.testBit_land, Nat.testBit_lor, Nat.testBit_shiftLeft,
    Nat.testBit_two_pow_sub_one, ge_iff_le]
  rcases Nat.lt_or_ge i 8 with h8 | h8
  · have n1 : ¬ 8 ≤ i := by omega
    have n2 : ¬ 16 ≤ i := by omega
    have n3 : i < 12 := by omega
    simp [n1, n2, n3]
  · have hb0 : b0.testBit i = false := testBit_byte_false b0 i h0 h8
    rcases Nat.lt_or_ge i 12 with h12 | h12
    · have n2 : ¬ 16 ≤ i := by omega
      have n4 : i - 8 < 4 := by omega
      simp [hb0, h8, n2, h12, n4]
    · have hmask : ¬ i < 12 := by omega
      have hb1 : (b1 &&& 2 ^ 4 - 1).testBit (i - 8) = false := by
        apply Nat.testBit_lt_two_pow
        have hp : (0 : Nat) < 2 ^ 4 := by norm_num
        calc b1 &&& 2 ^ 4 - 1 = b1 % 2 ^ 4 := Nat.and_pow_two_sub_one_eq_mod b1 4
          _ < 2 ^ 4 := Nat.mod_lt _ hp
          _ ≤ 2 ^ (i - 8) := Nat.pow_le_pow_right (by norm_num) (by omega)
      simp [hmask, hb0, hb1]
      intro h1 h2
      omega

lemma pack_high (b0 b1 b2 : Nat) (h0 : b0 < 256) (h1 : b1 < 256) (h2 : b2 < 256) :
    ((b0 ||| (b1 <<< 8) ||| (b2 <<< 16)) >>> 12) &&& 0xFFF = (b1 >>> 4) ||| (b2 <<< 4) := by
  have e12 : (0xFFF : Nat) = 2 ^ 12 - 1 := by norm_num
  apply Nat.eq_of_testBit_eq
  intro i
  rw [e12]
  simp only [Nat.testBit_land, Nat.testBit_lor, Nat.testBit_shiftLeft,
    Nat.testBit_shiftRight, Nat.testBit_two_pow_sub_one, ge_iff_le]
  have hb0 : b0.testBit (12 + i) = false := testBit_byte_false b0 _ h0 (by omega)
  rcases Nat.lt_or_ge i 12 with h12 | h12
  · have ha : 8 ≤ 12 + i := by omega
    have hsub : 12 + i - 8 = 4 + i := by omega
    by_cases h4 : 4 ≤ i
    · have hb : 16 ≤ 12 + i := by omega
      have hsub2 : 12 + i - 16 = i - 4 := by omega
      simp [hb0, ha, hsub, h12, h4, hb, hsub2]
    · have hb : ¬ 16 ≤ 12 + i := by omega
      simp [hb0, ha, hsub, h12, h4, hb]
  · have hmask : ¬ i < 12 := by omega
    have hb1 : b1.testBit (4 + i) = false := testBit_byte_false b1 _ h1 (by omega)
    have hb2 : b2.testBit (i - 4) = false := testBit_byte_false b2 _ h2 (by omega)
    simp [hmask, hb1, hb2]

lemma Pack12Loop_eq_spec : ∀ l : List Nat, (∀ b ∈ l, b < 256) →
    Pack12Loop l = Pack12SpecLoop l
  | [], _ => rfl
  | [b0], _ => rfl
  | [b0, b1], _ => rfl
  | b0 :: b1 :: b2 :: rest, h => by
    rw [Pack12Loop, Pack12SpecLoop]
    have h0 : b0 < 256 := h b0 (by simp)
    have h1 : b1 < 256 := h b1 (by simp)
    have h2 : b2 < 256 := h b2 (by simp)
    rw [pack_low b0 b1 b2 h0, pack_high b0 b1 b2 h0 h1 h2]
    rw [Pack12Loop_eq_spec rest (fun b hb => h b (by simp [hb]))]

lemma Pack12Loop_length : ∀ l : List Nat, l.length % 3 = 0 →
    (Pack12Loop l).length = 2 * (l.length / 3)
  | [], _ => rfl
  | [b0], h => by simp at h
  | [b0, b1], h => by simp at h
  | b0 :: b1 :: b2 :: rest, h => by
    rw [Pack12Loop]
    have hr : rest.length % 3 = 0 := by
      simp only [List.length_cons] at h
      omega
    have := Pack12Loop_length rest hr
    simp only [List.length_cons]
    simp only [List.length_cons] at this
    omega

lemma and_fff_lt (x : Nat) : x &&& 0xFFF < 4096 := by
  have e12 : (0xFFF : Nat) = 2 ^ 12 - 1 := by norm_num
  rw [e12, Nat.and_pow_two_sub_one_eq_mod]
  have hp : (0 : Nat) < 2 ^ 12 := by norm_num
  exact Nat.mod_lt _ hp

lemma Pack12Loop_lt : ∀ l : List Nat, ∀ v ∈ Pack12Loop l, v < 4096
  | b0 :: b1 :: b2 :: rest, v, hv => by
    rw [Pack12Loop] at hv
    simp only [List.mem_cons] at hv
    rcases hv with rfl | rfl | h
    · exact and_fff_lt _
    · exact and_fff_lt _
    · exact Pack12Loop_lt rest v h
  | [], v, hv => absurd hv (List.not_mem_nil v)
  | [b0], v, hv => absurd hv (List.not_mem_nil v)
  | [b0, b1], v, hv => absurd hv (List.not_mem_nil v)

lemma Pack12_lt (input : List Nat) : ∀ v ∈ Pack12 input, v < 4096 :=
  fun v hv => Pack12Loop_lt _ v hv

lemma Pack12_length (input : List Nat) :
    (Pack12 input).length = 2 * ((input.length + 2) / 3) := by
  unfold Pack12
  rw [Pack12Loop_length]
  · simp only [List.length_append, List.length_replicate]
    omega
  · simp only [List.length_append, List.length_replicate]
    omega

/-- C5: `Pack12` zero-pads to the next multiple of 3, realises the spec's
per-group `low`/`high` formulas, and returns `2⌈|B|/3⌉` values all below 4096. -/
theorem pack12_spec_conformance (B : List Nat) (hB : ∀ b ∈ B, b < 256) :
    Pack12 B = Pack12Spec B ∧
    (Pack12 B).length = 2 * ((B.length + 2) / 3) ∧
    ∀ v ∈ Pack12 B, v < 4096 := by
  refine ⟨?_, Pack12_length B, Pack12_lt B⟩
  unfold Pack12 Pack12Spec
  apply Pack12Loop_eq_spec
  intro b hb
  rcases List.mem_append.mp hb with h | h
  · exact hB b h
  · have := List.eq_of_mem_replicate h
    omega

/-- C5 witness: the theorem applied to the concrete input `[1, 32, 0, 255]`. -/
theorem pack12_spec_conformance_witness :
    Pack12 [1, 32, 0, 255] = Pack12Spec [1, 32, 0, 255] ∧
    (Pack12 [1, 32, 0, 255]).length = 2 * (([1, 32, 0, 255].length + 2) / 3) ∧
    ∀ v ∈ Pack12 [1, 32, 0, 255], v < 4096 :=
  pack12_spec_conformance [1, 32, 0, 255] (by decide)

lemma UpdateGraphLoop_eq_spec : ∀ (V : List Nat) (m : AdjMatrix) (vis : List Nat),
    (∀ v ∈ V, v < 4096) → (∀ x, x ∈ vis ↔ row m x ≠ []) →
    UpdateGraphLoop V m vis = some (SpecDeriveLoop V m vis)
  | [], m, vis, _, _ => rfl
  | [f], m, vis, _, _ => rfl
  | f :: t :: rest, m, vis, hV, hinv => by
    have hf : f < 4096 := hV f (by simp)
    have ht : t < 4096 := hV t (by simp)
    have hV' : ∀ v ∈ t :: rest, v < 4096 := fun v hv => hV v (by simp [List.mem_cons] at hv ⊢; tauto)
    rw [UpdateGraphLoop, SpecDeriveLoop]
    by_cases hft : f = t
    · rw [if_neg (by tauto), if_pos hft]
      exact UpdateGraphLoop_eq_spec (t :: rest) m vis hV' hinv
    · by_cases htv : t ∈ vis
      · rw [if_neg (by tauto), if_neg hft, if_pos htv]
        exact UpdateGraphLoop_eq_spec (t :: rest) m vis hV' hinv
      · rw [if_pos ⟨hft, htv⟩, if_neg hft, if_neg htv]
        rw [CGraph.AddEdge, if_neg (by simp [MAX_NODES]; omega), if_neg (by simp [MAX_NODES]; omega)]
        by_cases hrow : row m f = []
        · rw [if_neg (by simp [hrow])]
          have hfv : f ∉ vis := fun hc => (hinv f).mp hc hrow
          rw [if_neg (by simp [hrow]), insertVisited, if_neg hfv]
          apply UpdateGraphLoop_eq_spec (t :: rest) (m ++ [(f, t)]) (f :: vis) hV'
          intro x
          rw [row_snoc]
          constructor
          · intro hx
            rcases List.mem_cons.mp hx with rfl | hx2
            · simp
            · have := (hinv x).mp hx2
              simp [this]
          · intro hx
            by_cases hfx : f = x
            · subst hfx
              exact List.mem_cons_self f vis
            · simp only [if_neg hfx, List.append_nil] at hx
              exact List.mem_cons_of_mem f ((hinv x).mpr hx)
        · rw [if_pos (by simp [hrow]), if_pos (by simp [hrow])]
          have hfv : f ∈ vis := (hinv f).mpr hrow
          rw [insertVisited, if_pos hfv]
          exact UpdateGraphLoop_eq_spec (t :: rest) m vis hV' hinv

/-- C3: the derivation the code performs (visited-insertion even on
first-write-wins no-ops) computes exactly the matrix of the spec's §4.6
reference algorithm, as a pure function of the input bytes. -/
theorem derive_matches_spec (data : List Nat) :
    CGraph.UpdateGraphFromData data = SpecDeriveMatrix (Pack12 data) := by
  unfold CGraph.UpdateGraphFromData SpecDeriveMatrix
  by_cases hd : data = []
  · subst hd
    rw [if_pos rfl]
    have : Pack12 [] = [] := rfl
    rw [this]
    rfl
  · rw [if_neg hd]
    by_cases hlen : (Pack12 data).length < 2
    · rw [if_pos hlen, if_pos hlen]
    · rw [if_neg hlen, if_neg hlen]
      apply UpdateGraphLoop_eq_spec (Pack12 data) [] [] (Pack12_lt data)
      intro x
      simp [row_nil]

/-- C3 witness: the two derivations agree on a concrete 9-byte input. -/
theorem derive_matches_spec_witness :
    CGraph.UpdateGraphFromData tieData = SpecDeriveMatrix (Pack12 tieData) ∧
    CGraph.UpdateGraphFromData tieData = some mTie :=
  ⟨derive_matches_spec tieData, by decide⟩

lemma UpdateGraphLoop_invariants : ∀ (V : List Nat) (m : AdjMatrix) (vis : List Nat)
    (m' : AdjMatrix), (∀ f, (row m f).length ≤ 1) → (∀ f, f ∉ row m f) →
    UpdateGraphLoop V m vis = some m' →
    (∀ f, (row m' f).length ≤ 1) ∧ (∀ f, f ∉ row m' f)
  | [], m, vis, m', h1, h2, h => by
    rw [show UpdateGraphLoop [] m vis = some m from rfl] at h
    cases h
    exact ⟨h1, h2⟩
  | [f], m, vis, m', h1, h2, h => by
    rw [show UpdateGraphLoop [f] m vis = some m from rfl] at h
    cases h
    exact ⟨h1, h2⟩
  | f :: t :: rest, m, vis, m', h1, h2, h => by
    rw [UpdateGraphLoop] at h
    by_cases hc : f ≠ t ∧ t ∉ vis
    · rw [if_pos hc] at h
      rw [CGraph.AddEdge] at h
      by_cases hf : MAX_NODES ≤ f
      · rw [if_pos hf] at h
        exact absurd h (by simp)
      · rw [if_neg hf] at h
        by_cases ht : MAX_NODES ≤ t
        · rw [if_pos ht] at h
          exact absurd h (by simp)
        · rw [if_neg ht] at h
          by_cases hrow : row m f ≠ []
          · rw [if_pos hrow] at h
            exact UpdateGraphLoop_invariants (t :: rest) m _ m' h1 h2 h
          · rw [if_neg hrow] at h
            push_neg at hrow
            apply UpdateGraphLoop_invariants (t :: rest) (m ++ [(f, t)]) _ m' _ _ h
            · intro x
              rw [row_snoc]
              by_cases hfx : f = x
              · subst hfx
                simp [hrow]
              · simp only [if_neg hfx, List.append_nil]
                exact h1 x
            · intro x
              rw [row_snoc]
              by_cases hfx : f = x
              · subst hfx
                rw [hrow]
                simpa using hc.1
              · simp only [if_neg hfx, List.append_nil]
                exact h2 x
    · rw [if_neg hc] at h
      exact UpdateGraphLoop_invariants (t :: rest) m vis m' h1 h2 h

/-- C4: every matrix produced by the derivation has out-degree at most one in
every row and no self-loops. -/
theorem derived_matrix_invariants (data : List Nat) (m : AdjMatrix)
    (h : CGraph.UpdateGraphFromData data = some m) :
    ∀ f, (row m f).length ≤ 1 ∧ f ∉ row m f := by
  unfold CGraph.UpdateGraphFromData at h
  by_cases hd : data = []
  · rw [if_pos hd] at h
    exact absurd h (by simp)
  · rw [if_neg hd] at h
    by_cases hlen : (Pack12 data).length < 2
    · rw [if_pos hlen] at h
      exact absurd h (by simp)
    · rw [if_neg hlen] at h
      have := UpdateGraphLoop_invariants (Pack12 data) [] [] m
        (fun f => by simp [row_nil]) (fun f => by simp [row_nil]) h
      exact fun f => ⟨this.1 f, this.2 f⟩

/-- C4 witness: the invariants instantiated on the matrix derived from a
concrete input, at row 1. -/
theorem derived_matrix_invariants_witness :
    (row mTie 1).length ≤ 1 ∧ 1 ∉ row mTie 1 :=
  derived_matrix_invariants tieData mTie (by decide) 1

/-- C6 counterexample: starting from an instance holding the non-empty
solution `[9]` of an earlier successful mine, a failing `Mine()` (the KEM
encapsulation fails, so `Generate` fails) returns `false` but leaves the
stored solution non-empty, contradicting the claim that a failed `Mine()`
always leaves the stored solution empty. -/
theorem mine_false_nonempty_solution :
    (CQYRA.Mine cmFail stPrev).1 = false ∧
    (CQYRA.Mine cmFail stPrev).2.solution.solution = [9] := by decide

/-- C6 amended: when `Mine()` returns `false`, the stored solution is either
exactly what it was before the call (failures before the solution is cleared)
or empty (failure at the crypto-data emptiness check, after the clear); it is
not always empty. -/
theorem mine_failure_solution (cm : CryptoModel) (st : CQYRA) (st' : CQYRA)
    (h : CQYRA.Mine cm st = (false, st')) :
    st'.solution.solution = st.solution.solution ∨ st'.solution.solution = [] := by
  unfold CQYRA.Mine at h
  split at h
  · cases h
    left
    rfl
  · split at h
    · cases h
      left
      rfl
    · dsimp only at h
      split at h
      · cases h
        left
        rfl
      · split at h
        · cases h
          left
          rfl
        · split at h
          · cases h
            right
            rfl
          · split at h
            · cases h
              right
              exact List.length_eq_zero.mp (by assumption)
            · cases h

/-- C6 amended witness: the amended theorem applied to the concrete failing
mine of the counterexample. -/
theorem mine_failure_solution_witness :
    (CQYRA.Mine cmFail stPrev).2.solution.solution = stPrev.solution.solution ∨
    (CQYRA.Mine cmFail stPrev).2.solution.solution = [] :=
  mine_failure_solution cmFail stPrev (CQYRA.Mine cmFail stPrev).2 (by decide)

/-- C7: the fixed-size vector read satisfies the claim, but the raw-pointer
read does not: its guard tests `sizeof(uint8_t*)` = 8 bytes instead of the
destination's implied length, so a 4-byte read of the last 4 bytes fails,
and a "successful" read copies every remaining byte (here 20) while advancing
the cursor by only 8. -/
theorem stream_raw_read_diverges :
    (CStream.readVec ⟨[1, 2, 3, 4], 0⟩ 4 = some ([1, 2, 3, 4], ⟨[1, 2, 3, 4], 4⟩)) ∧
    (0 + 4 ≤ 4 ∧ CStream.readRaw ⟨[1, 2, 3, 4], 0⟩ = none) ∧
    (CStream.readRaw ⟨List.replicate 20 3, 0⟩ =
      some (List.replicate 20 3, ⟨List.replicate 20 3, 8⟩)) := by decide

lemma FindDFS_empty (m : AdjMatrix) (h : ∀ f, row m f = []) :
    CPath.FindDFS m = [] := by
  unfold CPath.FindDFS
  exact foldl_FindDFSStep_skip m _ [] (fun s _ => h s)

/-- C8: on a graph with no non-empty row, `FindDFS` returns the empty
sequence, `IsValid` rejects it, and `Validate` against the hash of any
non-empty path fails (for any collision-free hash). -/
theorem empty_graph_behaviour (m : AdjMatrix) (cm : CryptoModel) (p : List Nat)
    (hrows : ∀ f, row m f = []) (hinj : Function.Injective cm.blake3)
    (hp : p ≠ []) :
    CPath.FindDFS m = [] ∧
    CPath.IsValid (CPath.FindDFS m) m = false ∧
    (CPath.Validate cm (CPath.GetHash cm p) m).1 = false := by
  have hdfs := FindDFS_empty m hrows
  refine ⟨hdfs, ?_, ?_⟩
  · rw [hdfs]
    rfl
  · unfold CPath.Validate
    dsimp only
    rw [hdfs]
    apply decide_eq_false
    intro hEq
    unfold CPath.GetHash at hEq
    have h2 : serLE [] = serLE p := hinj hEq
    cases p with
    | nil => exact hp rfl
    | cons a t =>
      rw [show serLE [] = [] from rfl, serLE, List.flatMap_cons] at h2
      exact absurd h2.symm (by simp)

/-- C8 witness: the theorem applied to the all-empty matrix, the identity
hash model and the non-empty path `[5]`. -/
theorem empty_graph_behaviour_witness :
    CPath.FindDFS [] = [] ∧
    CPath.IsValid (CPath.FindDFS []) [] = false ∧
    (CPath.Validate cmId (CPath.GetHash cmId [5]) []).1 = false :=
  empty_graph_behaviour [] cmId [5] (fun _ => rfl) (fun _ _ hab => hab)
    (by decide)

lemma Assemble_eq (cd : CCryptoData) :
    Assemble cd = cd.enc ++ cd.iv ++ cd.ciphertext ++ cd.hash := by
  simp [Assemble, CStream.appendBytes]

lemma Generate_true_inv (cm : CryptoModel) (g g' : CGraph)
    (h : CGraph.Generate cm g = (true, g')) :
    ∃ ct ss e i m,
      cm.encaps g.publicKey = some (ct, ss) ∧
      cm.encrypt (g.header ++ g.nonce) ss = some (e, i) ∧
      CGraph.UpdateGraphFromData e = some m ∧
      g' = { g with ciphertext := ct, enc := e, iv := i, adjacencyMatrix := m } := by
  unfold CGraph.Generate at h
  split at h
  · cases h
  · rename_i ct ss hencaps
    try dsimp only at h
    split at h
    · cases h
    · rename_i e i hcipher
      try dsimp only at h
      split at h
      · cases h
      · rename_i m hupdate
        cases h
        exact ⟨ct, ss, e, i, m, hencaps, hcipher, hupdate, rfl⟩

lemma Mine_true_inv (cm : CryptoModel) (st st' : CQYRA)
    (h : CQYRA.Mine cm st = (true, st')) :
    ∃ ct ss e i m,
      cm.encaps st.graph.publicKey = some (ct, ss) ∧
      cm.encrypt (st.graph.header ++ st.graph.nonce) ss = some (e, i) ∧
      CGraph.UpdateGraphFromData e = some m ∧
      CPath.FindDFS m ≠ [] ∧
      CPath.IsValid (CPath.FindDFS m) m = true ∧
      st' = { graph :=
              { st.graph with
                  ciphertext := ct, enc := e, iv := i, adjacencyMatrix := m }
            , path := CPath.FindDFS m
            , solution :=
              { cryptoData := ⟨e, i, ct, CPath.GetHash cm (CPath.FindDFS m)⟩
              , solution :=
                  Assemble ⟨e, i, ct, CPath.GetHash cm (CPath.FindDFS m)⟩ } } := by
  unfold CQYRA.Mine at h
  split at h
  · cases h
  · rename_i g hgen
    obtain ⟨ct, ss, e, i, m, henc, hcip, hupd, rfl⟩ := Generate_true_inv cm st.graph g hgen
    split at h
    · cases h
    · dsimp only at h
      split at h
      · cases h
      · split at h
        · cases h
        · split at h
          · cases h
          · split at h
            · cases h
            · rename_i hlen hval _ _
              cases h
              refine ⟨ct, ss, e, i, m, henc, hcip, hupd, ?_, ?_, rfl⟩
              · intro hnil
                exact hlen (by rw [hnil]; rfl)
              · exact not_not.mp hval

/-- C1: with a valid key pair (KEM and cipher round-trips hold, with the §3
sizes) and header/nonce of the required sizes, a successful `Mine()` yields a
stored solution that the same instance's `Validate` accepts. -/
theorem mine_then_validate (cm : CryptoModel) (st st' : CQYRA)
    (hHeader : st.graph.header.length = 108)
    (hNonce : st.graph.nonce.length = 32)
    (hkem : ∀ ct ss, cm.encaps st.graph.publicKey = some (ct, ss) →
      cm.decaps ct st.graph.secretKey = some ss ∧ ct.length = CIPHERTEXT_SIZE)
    (hcip : ∀ key e i,
      cm.encrypt (st.graph.header ++ st.graph.nonce) key = some (e, i) →
      cm.decrypt e key i = some (st.graph.header ++ st.graph.nonce) ∧
      e.length = ENC_SIZE ∧ i.length = IV_SIZE)
    (hhash : ∀ x, (cm.blake3 x).length = HASH_SIZE)
    (hMine : CQYRA.Mine cm st = (true, st')) :
    (CQYRA.Validate cm st' st'.solution.solution).1 = true := by
  obtain ⟨ct, ss, e, i, m, henc, hcipE, hupd, hne, hval, rfl⟩ :=
    Mine_true_inv cm st st' hMine
  obtain ⟨hdec, hct⟩ := hkem ct ss henc
  obtain ⟨hdecr, he, hi⟩ := hcip ss e i hcipE
  simp only [ENC_SIZE, IV_SIZE, CIPHERTEXT_SIZE, HASH_SIZE] at hct he hi
  have hh : (CPath.GetHash cm (CPath.FindDFS m)).length = 32 := by
    have := hhash (serLE (CPath.FindDFS m))
    simpa [CPath.GetHash, HASH_SIZE] using this
  have hsolEq : Assemble ⟨e, i, ct, CPath.GetHash cm (CPath.FindDFS m)⟩ =
      e ++ i ++ ct ++ CPath.GetHash cm (CPath.FindDFS m) := Assemble_eq _
  have hsplit : e ++ i ++ ct ++ CPath.GetHash cm (CPath.FindDFS m) =
      (e ++ i ++ ct) ++ CPath.GetHash cm (CPath.FindDFS m) := by
    simp [List.append_assoc]
  have hblobLen : (e ++ i ++ ct).length = 1248 := by simp [he, hi, hct]
  have htake1248 :
      (e ++ i ++ ct ++ CPath.GetHash cm (CPath.FindDFS m)).take 1248 =
      e ++ i ++ ct := by
    rw [hsplit]
    exact List.take_left' hblobLen
  have hdrop1248 :
      (e ++ i ++ ct ++ CPath.GetHash cm (CPath.FindDFS m)).drop 1248 =
      CPath.GetHash cm (CPath.FindDFS m) := by
    rw [hsplit]
    exact List.drop_left' hblobLen
  have htakeHash : (CPath.GetHash cm (CPath.FindDFS m)).take 32 =
      CPath.GetHash cm (CPath.FindDFS m) := by
    rw [← hh]
    exact List.take_length _
  have hblobNe : ¬ (e ++ i ++ ct = []) := by
    intro hc
    rw [hc] at hblobLen
    simp at hblobLen
  have hassocEI : e ++ i ++ ct = e ++ (i ++ ct) := List.append_assoc e i ct
  have htakeE : (e ++ i ++ ct).take 144 = e := by
    rw [hassocEI]
    exact List.take_left' he
  have hdropE : (e ++ i ++ ct).drop 144 = i ++ ct := by
    rw [hassocEI]
    exact List.drop_left' he
  have htakeI : (i ++ ct).take 16 = i := List.take_left' hi
  have hdropCt : (e ++ i ++ ct).drop 160 = ct :=
    List.drop_left' (by simp [he, hi])
  dsimp only
  rw [hsolEq]
  unfold CQYRA.Validate
  rw [show SOLUTION_SIZE = 1280 from rfl, show TOTAL_SIZE = 1248 from rfl,
    show HASH_SIZE = 32 from rfl]
  rw [if_neg (by simp [he, hi, hct, hh])]
  rw [show (CStream.mk (e ++ i ++ ct ++ CPath.GetHash cm (CPath.FindDFS m)) 0).readVec
      1248 =
      some (e ++ i ++ ct,
        CStream.mk (e ++ i ++ ct ++ CPath.GetHash cm (CPath.FindDFS m)) 1248) by
    unfold CStream.readVec
    rw [if_neg (by simp [he, hi, hct, hh])]
    rw [List.drop_zero, Nat.zero_add, htake1248]]
  dsimp only
  rw [show (CStream.mk (e ++ i ++ ct ++ CPath.GetHash cm (CPath.FindDFS m)) 1248).readVec
      32 =
      some (CPath.GetHash cm (CPath.FindDFS m),
        CStream.mk (e ++ i ++ ct ++ CPath.GetHash cm (CPath.FindDFS m)) 1280) by
    unfold CStream.readVec
    rw [if_neg (by simp [he, hi, hct, hh])]
    rw [hdrop1248, htakeHash]]
  dsimp only
  rw [show CGraph.Validate cm
      { st.graph with ciphertext := ct, enc := e, iv := i, adjacencyMatrix := m }
      (e ++ i ++ ct) =
      (true,
        { st.graph with
            ciphertext := ct, enc := e, iv := i, adjacencyMatrix := m }) by
    unfold CGraph.Validate
    rw [show TOTAL_SIZE = 1248 from rfl, show ENC_SIZE = 144 from rfl,
      show IV_SIZE = 16 from rfl]
    rw [if_neg hblobNe]
    rw [if_neg (by simp [he, hi, hct])]
    rw [show (CStream.mk (e ++ i ++ ct) 0).readVec 144 =
        some (e, CStream.mk (e ++ i ++ ct) 144) by
      unfold CStream.readVec
      rw [if_neg (by simp [he, hi, hct])]
      rw [List.drop_zero, Nat.zero_add, htakeE]]
    dsimp only
    rw [show (CStream.mk (e ++ i ++ ct) 144).readVec 16 =
        some (i, CStream.mk (e ++ i ++ ct) 160) by
      unfold CStream.readVec
      rw [if_neg (by simp [he, hi, hct])]
      rw [hdropE, htakeI]]
    dsimp only
    rw [show (CStream.mk (e ++ i ++ ct) 160).readRaw =
        some (ct, CStream.mk (e ++ i ++ ct) 168) by
      unfold CStream.readRaw
      rw [if_neg (by simp [he, hi, hct])]
      rw [hdropCt]]
    dsimp only
    rw [hdec]
    dsimp only
    rw [hdecr]
    dsimp only
    rw [if_neg (by simp)]
    rw [hupd]]
  dsimp only
  simp [CPath.Validate]

/-- C2: a successful `Mine()` stores exactly
`enc(144) ‖ iv(16) ‖ ciphertext(1088) ‖ path_hash(32)` — 1280 bytes — where
`path_hash` is the hash of the found path's nodes serialised as little-endian
16-bit integers. -/
theorem solution_layout (cm : CryptoModel) (st st' : CQYRA)
    (hHeader : st.graph.header.length = 108)
    (hNonce : st.graph.nonce.length = 32)
    (hkem : ∀ ct ss, cm.encaps st.graph.publicKey = some (ct, ss) →
      ct.length = CIPHERTEXT_SIZE)
    (hcip : ∀ key e i,
      cm.encrypt (st.graph.header ++ st.graph.nonce) key = some (e, i) →
      e.length = ENC_SIZE ∧ i.length = IV_SIZE)
    (hhash : ∀ x, (cm.blake3 x).length = HASH_SIZE)
    (hMine : CQYRA.Mine cm st = (true, st')) :
    st'.solution.solution =
      st'.graph.enc ++ st'.graph.iv ++ st'.graph.ciphertext ++
        cm.blake3 (serLE st'.path) ∧
    st'.solution.solution.length = SOLUTION_SIZE ∧
    st'.graph.enc.length = ENC_SIZE ∧
    st'.graph.iv.length = IV_SIZE ∧
    st'.graph.ciphertext.length = CIPHERTEXT_SIZE ∧
    (cm.blake3 (serLE st'.path)).length = HASH_SIZE := by
  obtain ⟨ct, ss, e, i, m, henc, hcipE, hupd, hne, hval, rfl⟩ :=
    Mine_true_inv cm st st' hMine
  have hct := hkem ct ss henc
  obtain ⟨he, hi⟩ := hcip ss e i hcipE
  have hh := hhash (serLE (CPath.FindDFS m))
  dsimp only
  rw [Assemble_eq]
  refine ⟨rfl, ?_, he, hi, hct, hh⟩
  simp [he, hi, hct, hh, CPath.GetHash, SOLUTION_SIZE, TOTAL_SIZE, ENC_SIZE,
    IV_SIZE, CIPHERTEXT_SIZE, HASH_SIZE]

lemma row_mTest_empty (s : Nat) (h65 : 65 ≤ s) : row mTest s = [] := by
  simp only [mTest, row_cons, row_nil]
  rw [if_neg (by omega), if_neg (by omega), if_neg (by omega), if_neg (by omega)]

lemma FindDFS_mTest : CPath.FindDFS mTest = pathTest := by
  unfold CPath.FindDFS
  rw [show List.range MAX_NODES = rangeFromTo 0 65 ++ rangeFromTo 65 4096 by
    rw [rangeFromTo_append 0 65 4096 (by omega) (by omega), rangeFromTo_zero]
    rfl]
  rw [List.foldl_append]
  rw [foldl_FindDFSStep_skip mTest (rangeFromTo 65 4096) _
    (fun s hs => row_mTest_empty s ((mem_rangeFromTo 65 4096 s).mp hs).1)]
  decide

set_option maxRecDepth 40000 in
lemma Generate_stTest : CGraph.Generate cmTest stTest.graph = (true, gTest) := by
  rfl

set_option maxRecDepth 40000 in
lemma Mine_stTest : CQYRA.Mine cmTest stTest = (true, stMined) := by
  unfold CQYRA.Mine
  rw [Generate_stTest]
  dsimp only [gTest]
  rw [FindDFS_mTest]
  rfl

set_option maxRecDepth 40000 in
/-- C1 witness: the round-trip theorem applied to the concrete model
`cmTest` and instance `stTest`, whose `Mine()` succeeds with state `stMined`. -/
theorem mine_then_validate_witness :
    (CQYRA.Validate cmTest stMined stMined.solution.solution).1 = true :=
  mine_then_validate cmTest stTest stMined
    (by decide) (by decide)
    (fun ct ss h => by
      obtain ⟨rfl, rfl⟩ := Prod.mk.inj (Option.some.inj h)
      refine ⟨rfl, ?_⟩
      rw [List.length_replicate]
      rfl)
    (fun key e i h => by
      obtain ⟨rfl, rfl⟩ := Prod.mk.inj (Option.some.inj h)
      refine ⟨?_, by decide, by decide⟩
      have ht : (stTest.graph.header ++ stTest.graph.nonce ++
          [4, 4, 4, 4]).take 140 =
          stTest.graph.header ++ stTest.graph.nonce :=
        List.take_left' (by decide)
      have hgoal : cmTest.decrypt (stTest.graph.header ++ stTest.graph.nonce ++
          [4, 4, 4, 4]) key (List.replicate 16 9) =
          some ((stTest.graph.header ++ stTest.graph.nonce ++
            [4, 4, 4, 4]).take 140) := rfl
      rw [hgoal, ht])
    (fun x => by
      show ((x ++ List.replicate 32 0).take 32).length = HASH_SIZE
      rw [List.length_take]
      simp [HASH_SIZE])
    Mine_stTest

set_option maxRecDepth 40000 in
/-- C2 witness: the layout theorem applied to the concrete mined state. -/
theorem solution_layout_witness :
    stMined.solution.solution =
      stMined.graph.enc ++ stMined.graph.iv ++ stMined.graph.ciphertext ++
        cmTest.blake3 (serLE stMined.path) ∧
    stMined.solution.solution.length = SOLUTION_SIZE ∧
    stMined.graph.enc.length = ENC_SIZE ∧
    stMined.graph.iv.length = IV_SIZE ∧
    stMined.graph.ciphertext.length = CIPHERTEXT_SIZE ∧
    (cmTest.blake3 (serLE stMined.path)).length = HASH_SIZE :=
  solution_layout cmTest stTest stMined
    (by decide) (by decide)
    (fun ct ss h => by
      obtain ⟨rfl, rfl⟩ := Prod.mk.inj (Option.some.inj h)
      rw [List.length_replicate]
      rfl)
    (fun key e i h => by
      obtain ⟨rfl, rfl⟩ := Prod.mk.inj (Option.some.inj h)
      exact ⟨by decide, by decide⟩)
    (fun x => by
      show ((x ++ List.replicate 32 0).take 32).length = HASH_SIZE
      rw [List.length_take]
      simp [HASH_SIZE])
    Mine_stTest

lemma rankOf_append_of_mem (m : AdjMatrix) (e' : Nat × Nat) (a : Nat)
    (h : row m a ≠ []) : rankOf (m ++ [e']) a = rankOf m a := by
  induction m with
  | nil => exact absurd rfl h
  | cons e m ih =>
    obtain ⟨f, t⟩ := e
    by_cases hfa : f = a
    · subst hfa
      simp [rankOf, List.findIdx_cons]
    · have hrow : row m a ≠ [] := by
        rw [row_cons, if_neg hfa] at h
        exact h
      have := ih hrow
      simp only [rankOf, List.cons_append, List.findIdx_cons] at this ⊢
      have hbeq : (f == a) = false := beq_eq_false_iff_ne.mpr hfa
      simp [hbeq, this]

lemma rankOf_lt_length (m : AdjMatrix) (a : Nat) (h : row m a ≠ []) :
    rankOf m a < m.length := by
  induction m with
  | nil => exact absurd rfl h
  | cons e m ih =>
    obtain ⟨f, t⟩ := e
    by_cases hfa : f = a
    · subst hfa
      simp [rankOf, List.findIdx_cons]
    · have hrow : row m a ≠ [] := by
        rw [row_cons, if_neg hfa] at h
        exact h
      have hbeq : (f == a) = false := beq_eq_false_iff_ne.mpr hfa
      simp only [rankOf, List.findIdx_cons, hbeq, cond_false, List.length_cons]
      have := ih hrow
      simp only [rankOf] at this
      omega

lemma rankOf_append_self (m : AdjMatrix) (f t : Nat) (h : row m f = []) :
    rankOf (m ++ [(f, t)]) f = m.length := by
  induction m with
  | nil => simp [rankOf, List.findIdx_cons]
  | cons e m ih =>
    obtain ⟨a, b⟩ := e
    have hfa : a ≠ f := by
      intro hc
      subst hc
      rw [row_cons, if_pos rfl] at h
      exact absurd h (by simp)
    have hrow : row m f = [] := by
      rw [row_cons, if_neg hfa] at h
      exact h
    have hbeq : (a == f) = false := beq_eq_false_iff_ne.mpr hfa
    simp only [List.cons_append, rankOf, List.findIdx_cons, hbeq, cond_false,
      List.length_cons]
    have := ih hrow
    simp only [rankOf] at this
    omega

lemma UpdateGraphLoop_keyinv : ∀ (V : List Nat) (m : AdjMatrix) (vis : List Nat)
    (m' : AdjMatrix),
    (∀ x, x ∈ vis ↔ row m x ≠ []) →
    (∀ a b c, (a, b) ∈ m → (b, c) ∈ m → rankOf m a < rankOf m b) →
    UpdateGraphLoop V m vis = some m' →
    (∀ a b c, (a, b) ∈ m' → (b, c) ∈ m' → rankOf m' a < rankOf m' b)
  | [], m, vis, m', _, hkey, h => by
    rw [show UpdateGraphLoop [] m vis = some m from rfl] at h
    cases h
    exact hkey
  | [f], m, vis, m', _, hkey, h => by
    rw [show UpdateGraphLoop [f] m vis = some m from rfl] at h
    cases h
    exact hkey
  | f :: t :: rest, m, vis, m', hvis, hkey, h => by
    rw [UpdateGraphLoop] at h
    by_cases hc : f ≠ t ∧ t ∉ vis
    · rw [if_pos hc] at h
      rw [CGraph.AddEdge] at h
      by_cases hf : MAX_NODES ≤ f
      · rw [if_pos hf] at h
        exact absurd h (by simp)
      · rw [if_neg hf] at h
        by_cases ht : MAX_NODES ≤ t
        · rw [if_pos ht] at h
          exact absurd h (by simp)
        · rw [if_neg ht] at h
          by_cases hrow : row m f ≠ []
          · rw [if_pos hrow] at h
            rw [show insertVisited f vis = vis by
              unfold insertVisited
              rw [if_pos ((hvis f).mpr hrow)]] at h
            exact UpdateGraphLoop_keyinv (t :: rest) m vis m' hvis hkey h
          · rw [if_neg hrow] at h
            push_neg at hrow
            have hfvis : f ∉ vis := fun hx => ((hvis f).mp hx) hrow
            have hrowt : row m t = [] := by
              by_cases hx : row m t = []
              · exact hx
              · exact absurd ((hvis t).mpr hx) hc.2
            rw [show insertVisited f vis = f :: vis by
              unfold insertVisited
              rw [if_neg hfvis]] at h
            apply UpdateGraphLoop_keyinv (t :: rest) (m ++ [(f, t)]) (f :: vis)
              m' _ _ h
            · intro x
              rw [row_snoc]
              constructor
              · intro hx
                rcases List.mem_cons.mp hx with rfl | hx2
                · simp
                · have := (hvis x).mp hx2
                  simp [this]
              · intro hx
                by_cases hfx : f = x
                · subst hfx
                  exact List.mem_cons_self f vis
                · simp only [if_neg hfx, List.append_nil] at hx
                  exact List.mem_cons_of_mem f ((hvis x).mpr hx)
            · intro a b c hab hbc
              have hrowa : ∀ p q, (p, q) ∈ m → row m p ≠ [] := by
                intro p q hpq hnil
                exact ((row_eq_nil_iff m p).mp hnil q) hpq
              rcases List.mem_append.mp hab with hab1 | hab1
              · rcases List.mem_append.mp hbc with hbc1 | hbc1
                · rw [rankOf_append_of_mem m (f, t) a (hrowa a b hab1),
                    rankOf_append_of_mem m (f, t) b (hrowa b c hbc1)]
                  exact hkey a b c hab1 hbc1
                · have hbf : b = f := by
                    have := List.mem_singleton.mp hbc1
                    exact congrArg Prod.fst this
                  rw [hbf]
                  rw [rankOf_append_of_mem m (f, t) a (hrowa a b hab1),
                    rankOf_append_self m f t hrow]
                  exact rankOf_lt_length m a (hrowa a b hab1)
              · have : a = f ∧ b = t := by
                  have := List.mem_singleton.mp hab1
                  exact ⟨congrArg Prod.fst this, congrArg Prod.snd this⟩
                obtain ⟨rfl, rfl⟩ := this
                rcases List.mem_append.mp hbc with hbc1 | hbc1
                · exact absurd hbc1 (fun hx => (hrowa b c hx) hrowt)
                · have : b = a := by
                    have := List.mem_singleton.mp hbc1
                    exact congrArg Prod.fst this
                  exact absurd this.symm hc.1
    · rw [if_neg hc] at h
      exact UpdateGraphLoop_keyinv (t :: rest) m vis m' hvis hkey h

lemma UpdateGraphLoop_range : ∀ (V : List Nat) (m : AdjMatrix) (vis : List Nat)
    (m' : AdjMatrix), (∀ e ∈ m, e.1 < MAX_NODES ∧ e.2 < MAX_NODES) →
    UpdateGraphLoop V m vis = some m' →
    ∀ e ∈ m', e.1 < MAX_NODES ∧ e.2 < MAX_NODES
  | [], m, vis, m', h1, h => by
    rw [show UpdateGraphLoop [] m vis = some m from rfl] at h
    cases h
    exact h1
  | [f], m, vis, m', h1, h => by
    rw [show UpdateGraphLoop [f] m vis = some m from rfl] at h
    cases h
    exact h1
  | f :: t :: rest, m, vis, m', h1, h => by
    rw [UpdateGraphLoop] at h
    by_cases hc : f ≠ t ∧ t ∉ vis
    · rw [if_pos hc] at h
      rw [CGraph.AddEdge] at h
      by_cases hf : MAX_NODES ≤ f
      · rw [if_pos hf] at h
        exact absurd h (by simp)
      · rw [if_neg hf] at h
        by_cases ht : MAX_NODES ≤ t
        · rw [if_pos ht] at h
          exact absurd h (by simp)
        · rw [if_neg ht] at h
          by_cases hrow : row m f ≠ []
          · rw [if_pos hrow] at h
            exact UpdateGraphLoop_range (t :: rest) m _ m' h1 h
          · rw [if_neg hrow] at h
            apply UpdateGraphLoop_range (t :: rest) (m ++ [(f, t)]) _ m' _ h
            intro e he
            rcases List.mem_append.mp he with he1 | he1
            · exact h1 e he1
            · rw [List.mem_singleton.mp he1]
              exact ⟨by omega, by omega⟩
    · rw [if_neg hc] at h
      exact UpdateGraphLoop_range (t :: rest) m vis m' h1 h

lemma UpdateGraphFromData_loop (data : List Nat) (m : AdjMatrix)
    (h : CGraph.UpdateGraphFromData data = some m) :
    UpdateGraphLoop (Pack12 data) [] [] = some m := by
  unfold CGraph.UpdateGraphFromData at h
  by_cases hd : data = []
  · rw [if_pos hd] at h
    exact absurd h (by simp)
  · rw [if_neg hd] at h
    by_cases hlen : (Pack12 data).length < 2
    · rw [if_pos hlen] at h
      exact absurd h (by simp)
    · rw [if_neg hlen] at h
      exact h

lemma chain_rank (m : AdjMatrix)
    (hkey : ∀ a b c, (a, b) ∈ m → (b, c) ∈ m → rankOf m a < rankOf m b) :
    ∀ (l : List Nat) (x y : Nat), List.Chain (Edge m) x (l ++ [y]) →
    (∃ z, Edge m y z) → rankOf m x < rankOf m y := by
  intro l
  induction l with
  | nil =>
    intro x y hch hz
    rw [List.nil_append, List.chain_cons] at hch
    obtain ⟨z, hyz⟩ := hz
    exact hkey x y z hch.1 hyz
  | cons n t ih =>
    intro x y hch hz
    rw [List.cons_append, List.chain_cons] at hch
    obtain ⟨hxn, hch2⟩ := hch
    have hout : ∃ w, Edge m n w := by
      cases t with
      | nil =>
        rw [List.nil_append, List.chain_cons] at hch2
        exact ⟨y, hch2.1⟩
      | cons t1 tt =>
        rw [List.cons_append, List.chain_cons] at hch2
        exact ⟨t1, hch2.1⟩
    obtain ⟨w, hnw⟩ := hout
    exact lt_trans (hkey x n w hxn hnw) (ih n y hch2 hz)

lemma mem_foldl_acc_append {α β : Type} (g : α → List β) :
    ∀ (l : List α) (init : List β) (c : β),
    (c ∈ l.foldl (fun acc x => acc ++ g x) init ↔ c ∈ init ∨ ∃ x ∈ l, c ∈ g x)
  | [], init, c => by simp
  | x :: l, init, c => by
    rw [List.foldl_cons]
    rw [mem_foldl_acc_append g l (init ++ g x) c]
    simp only [List.mem_append, List.mem_cons]
    constructor
    · rintro ((hc | hc) | ⟨y, hy, hc⟩)
      · exact Or.inl hc
      · exact Or.inr ⟨x, Or.inl rfl, hc⟩
      · exact Or.inr ⟨y, Or.inr hy, hc⟩
    · rintro (hc | ⟨y, (rfl | hy), hc⟩)
      · exact Or.inl (Or.inl hc)
      · exact Or.inl (Or.inr hc)
      · exact Or.inr ⟨y, hy, hc⟩

lemma dfsLeaves_fold_eq (m : AdjMatrix) (fuel : Nat) (vis cp : List Nat)
    (nbrs : List Nat) (init : List (List Nat)) :
    nbrs.foldl
      (fun acc nb => if nb ∈ vis then acc
        else acc ++ CPath.DFSLeaves m fuel nb vis cp) init =
    nbrs.foldl
      (fun acc nb =>
        acc ++ (if nb ∈ vis then [] else CPath.DFSLeaves m fuel nb vis cp))
      init := by
  congr 1
  funext acc nb
  split <;> simp

lemma DFSLeaves_props (m : AdjMatrix) (hm : ∀ e ∈ m, e.2 < MAX_NODES) :
    ∀ (fuel node : Nat) (vis cp : List Nat), node < MAX_NODES → node ∉ vis →
    (∀ x ∈ cp, x ∈ vis) → cp.Nodup → (∀ x ∈ cp, x < MAX_NODES) →
    ∀ c ∈ CPath.DFSLeaves m fuel node vis cp,
      c.Nodup ∧ ∀ x ∈ c, x < MAX_NODES := by
  intro fuel
  induction fuel with
  | zero =>
    intro node vis cp _ _ _ _ _ c hc
    exact absurd hc (by simp [CPath.DFSLeaves])
  | succ fuel ih =>
    intro node vis cp hnode hnvis hsub hnodup hbound c hc
    rw [CPath.DFSLeaves] at hc
    have hcpN : (cp ++ [node]).Nodup := by
      rw [List.nodup_append]
      refine ⟨hnodup, List.nodup_singleton node, ?_⟩
      intro x hx
      simp only [List.mem_singleton]
      intro hxn
      subst hxn
      exact hnvis (hsub x hx)
    have hcpB : ∀ x ∈ cp ++ [node], x < MAX_NODES := by
      intro x hx
      rcases List.mem_append.mp hx with hx1 | hx1
      · exact hbound x hx1
      · rw [List.mem_singleton.mp hx1]
        exact hnode
    have hcpS : ∀ x ∈ cp ++ [node], x ∈ node :: vis := by
      intro x hx
      rcases List.mem_append.mp hx with hx1 | hx1
      · exact List.mem_cons_of_mem node (hsub x hx1)
      · rw [List.mem_singleton.mp hx1]
        exact List.mem_cons_self node vis
    have hfold : ∀ c, c ∈ (row m node).foldl
        (fun acc nb => if nb ∈ node :: vis then acc
          else acc ++ CPath.DFSLeaves m fuel nb (node :: vis) (cp ++ [node]))
        [] →
        c.Nodup ∧ ∀ x ∈ c, x < MAX_NODES := by
      intro c hcf
      rw [dfsLeaves_fold_eq, mem_foldl_acc_append] at hcf
      rcases hcf with hcf | ⟨nb, hnb, hcf⟩
      · exact absurd hcf (by simp)
      · by_cases hnbv : nb ∈ node :: vis
        · rw [if_pos hnbv] at hcf
          exact absurd hcf (by simp)
        · rw [if_neg hnbv] at hcf
          have hnbB : nb < MAX_NODES :=
            hm (node, nb) ((mem_row m node nb).mp hnb)
          exact ih nb (node :: vis) (cp ++ [node]) hnbB hnbv hcpS hcpN hcpB
            c hcf
    by_cases hrow : row m node = []
    · rw [if_pos hrow] at hc
      rw [hrow] at hc
      simp only [List.foldl_nil, List.nil_append, List.mem_singleton] at hc
      subst hc
      exact ⟨hcpN, hcpB⟩
    · rw [if_neg hrow] at hc
      exact hfold c hc

lemma nodup_bounded_length (c : List Nat) (hn : c.Nodup)
    (hb : ∀ x ∈ c, x < MAX_NODES) : c.length ≤ MAX_NODES := by
  have hsub : c ⊆ List.range MAX_NODES := by
    intro x hx
    rw [List.mem_range]
    exact hb x hx
  have := (List.subperm_of_subset hn hsub).length_le
  simpa using this

/-- C10: every derived matrix is acyclic (no directed cycle of any length),
and every leaf path the DFS produces from any start node visits no node twice
and has length at most `MAX_NODES`. -/
theorem derived_matrix_acyclic (data : List Nat) (m : AdjMatrix)
    (h : CGraph.UpdateGraphFromData data = some m) :
    (∀ v l, ¬ List.Chain (Edge m) v (l ++ [v])) ∧
    (∀ s, s < MAX_NODES → ∀ c ∈ CPath.DFSLeaves m (MAX_NODES + 1) s [] [],
      c.Nodup ∧ c.length ≤ MAX_NODES) := by
  have hloop := UpdateGraphFromData_loop data m h
  have hkey := UpdateGraphLoop_keyinv (Pack12 data) [] [] m
    (fun x => by simp [row_nil]) (fun a b c hab _ => absurd hab (by simp))
    hloop
  have hrange : ∀ e ∈ m, e.2 < MAX_NODES := fun e he =>
    (UpdateGraphLoop_range (Pack12 data) [] [] m (by simp) hloop e he).2
  constructor
  · intro v l hch
    cases l with
    | nil =>
      rw [List.nil_append, List.chain_cons] at hch
      exact absurd (hkey v v v hch.1 hch.1) (lt_irrefl _)
    | cons n t =>
      have hout : ∃ z, Edge m v z := by
        rw [List.cons_append, List.chain_cons] at hch
        exact ⟨n, hch.1⟩
      exact absurd (chain_rank m hkey (n :: t) v v hch hout) (lt_irrefl _)
  · intro s hs c hc
    have := DFSLeaves_props m hrange (MAX_NODES + 1) s [] [] hs (by simp)
      (by simp) List.nodup_nil (by simp) c hc
    exact ⟨this.1, nodup_bounded_length c this.1 this.2⟩

/-- C10 witness: on the concrete derived two-chain matrix, the node 1 lies on
no cycle, and the DFS leaf path from start 1 is duplicate-free and short. -/
theorem derived_matrix_acyclic_witness :
    (¬ List.Chain (Edge mTie) 1 ([] ++ [1])) ∧
    ([1, 2].Nodup ∧ [1, 2].length ≤ MAX_NODES) :=
  ⟨(derived_matrix_acyclic tieData mTie (by decide)).1 1 [],
    (derived_matrix_acyclic tieData mTie (by decide)).2 1 (by decide) [1, 2]
      (by decide)⟩

lemma flatten_perm_cons_set : ∀ (ts : List (List (List Nat))) (i : Nat)
    (c : List Nat) (tl : List (List Nat)),
    ts.get? i = some (c :: tl) →
    ts.flatten.Perm (c :: (ts.set i tl).flatten)
  | [], i, c, tl, h => by simp at h
  | t :: ts, 0, c, tl, h => by
    have ht : t = c :: tl := Option.some.inj h
    subst ht
    simp [List.flatten_cons, List.set]
  | t :: ts, i + 1, c, tl, h => by
    have ih := flatten_perm_cons_set ts i c tl h
    simp only [List.set, List.flatten_cons]
    exact (ih.append_left t).trans List.perm_middle

lemma interleaving_perm {ts : List (List (List Nat))} {s : List (List Nat)}
    (h : IsInterleaving ts s) : s.Perm ts.flatten := by
  induction h with
  | nil ts hall =>
    have : ts.flatten = [] := List.flatten_eq_nil_iff.mpr hall
    rw [this]
  | step ts i c tl rest hget _hrest ih =>
    exact (ih.cons c).trans (flatten_perm_cons_set ts i c tl hget).symm

lemma updateLongest_length (l c : List Nat) :
    (updateLongest l c).length = max l.length c.length := by
  unfold updateLongest
  split <;> omega

lemma runUpdates_length : ∀ (cs : List (List Nat)) (init : List Nat),
    (runUpdates cs init).length =
      cs.foldl (fun a c => max a c.length) init.length
  | [], init => rfl
  | c :: cs, init => by
    show (runUpdates cs (updateLongest init c)).length = _
    rw [runUpdates_length cs (updateLongest init c), updateLongest_length]
    simp only [List.foldl_cons]

lemma foldl_max_perm : ∀ {l₁ l₂ : List (List Nat)}, l₁.Perm l₂ →
    ∀ a : Nat, l₁.foldl (fun a c => max a c.length) a =
      l₂.foldl (fun a c => max a c.length) a := by
  intro l₁ l₂ h
  induction h with
  | nil => intro a; rfl
  | cons x _h ih =>
    intro a
    simp only [List.foldl_cons]
    exact ih _
  | swap x y l =>
    intro a
    simp only [List.foldl_cons]
    congr 1
    omega
  | trans _h1 _h2 ih1 ih2 =>
    intro a
    rw [ih1, ih2]

lemma flatten_map_flatMap (g : Nat → List Nat) (f : Nat → List (List Nat)) :
    ∀ l : List Nat,
    (l.map (fun t => (g t).flatMap f)).flatten = (l.map g).flatten.flatMap f
  | [] => rfl
  | t :: l => by
    simp only [List.map_cons, List.flatten_cons, List.flatMap_append,
      flatten_map_flatMap g f l]

lemma tiling_aux (nT : Nat) (h1 : 1 ≤ nT) : ∀ k, k ≤ nT →
    ((List.range k).map
      (fun t => rangeFromTo (t * nodesPerThread nT) (threadEndNode nT t))).flatten
      = rangeFromTo 0 (if k = nT then MAX_NODES else k * nodesPerThread nT) := by
  intro k
  induction k with
  | zero =>
    intro _
    rw [if_neg (by omega), Nat.zero_mul]
    rfl
  | succ k ih =>
    intro hk
    have hkn : k ≠ nT := by omega
    have hle : k ≤ nT := by omega
    rw [List.range_succ, List.map_append, List.flatten_append, ih hle,
      if_neg hkn]
    simp only [List.map_cons, List.map_nil, List.flatten_cons,
      List.flatten_nil, List.append_nil]
    have hmul : nT * nodesPerThread nT ≤ MAX_NODES := by
      unfold nodesPerThread
      calc nT * (MAX_NODES / nT) = MAX_NODES / nT * nT := Nat.mul_comm _ _
        _ ≤ MAX_NODES := Nat.div_mul_le_self _ _
    have hkmul : k * nodesPerThread nT ≤ nT * nodesPerThread nT :=
      Nat.mul_le_mul_right _ hle
    by_cases hkn1 : k + 1 = nT
    · rw [if_pos hkn1]
      unfold threadEndNode
      rw [if_pos hkn1]
      exact rangeFromTo_append 0 (k * nodesPerThread nT) MAX_NODES
        (by omega) (by omega)
    · rw [if_neg hkn1]
      unfold threadEndNode
      rw [if_neg hkn1]
      have : (k + 1) * nodesPerThread nT =
          k * nodesPerThread nT + nodesPerThread nT := Nat.succ_mul _ _
      rw [this]
      exact rangeFromTo_append 0 (k * nodesPerThread nT)
        (k * nodesPerThread nT + nodesPerThread nT) (by omega) (by omega)

lemma flatten_threadTraces (m : AdjMatrix) (nT : Nat) (h : 1 ≤ nT) :
    (ThreadTraces m nT).flatten =
      (List.range MAX_NODES).flatMap (StartTrace m) := by
  unfold ThreadTraces ThreadTrace
  rw [flatten_map_flatMap
    (fun t => rangeFromTo (t * nodesPerThread nT) (threadEndNode nT t))
    (StartTrace m) (List.range nT)]
  have := tiling_aux nT h nT (le_refl nT)
  rw [this, if_pos rfl, rangeFromTo_zero]

/-- C9 amended: any two parallel `FindDFS` runs — with any worker counts and
any mutex serialisation orders — return node sequences of equal length: the
final length is the maximum candidate length, independent of the schedule. -/
theorem parallel_dfs_length (m : AdjMatrix) (nT₁ nT₂ : Nat)
    (o₁ o₂ : List Nat) (h1 : 1 ≤ nT₁) (h2 : 1 ≤ nT₂)
    (hr1 : ParDFSResult m nT₁ o₁) (hr2 : ParDFSResult m nT₂ o₂) :
    o₁.length = o₂.length := by
  obtain ⟨s₁, hi₁, rfl⟩ := hr1
  obtain ⟨s₂, hi₂, rfl⟩ := hr2
  rw [runUpdates_length, runUpdates_length]
  have p₁ := (interleaving_perm hi₁).trans
    (by rw [flatten_threadTraces m nT₁ h1])
  have p₂ := (interleaving_perm hi₂).trans
    (by rw [flatten_threadTraces m nT₂ h2])
  rw [foldl_max_perm p₁, foldl_max_perm p₂]

lemma row_mTie_empty (s : Nat) (h1 : s ≠ 1) (h2 : s ≠ 3000) :
    row mTie s = [] := by
  simp only [mTie, row_cons, row_nil]
  rw [if_neg (by omega), if_neg (by omega)]

lemma ThreadTrace_mTie_0 : ThreadTrace mTie 2 0 = [[1, 2]] := by
  unfold ThreadTrace
  rw [show (0 : Nat) * nodesPerThread 2 = 0 from rfl,
    show threadEndNode 2 0 = 2048 from rfl]
  rw [show rangeFromTo 0 2048 = rangeFromTo 0 2 ++ rangeFromTo 2 2048 from
    (rangeFromTo_append 0 2 2048 (by omega) (by omega)).symm]
  rw [List.flatMap_append]
  rw [flatMap_StartTrace_skip mTie (rangeFromTo 2 2048) (fun s hs => by
    have := (mem_rangeFromTo 2 2048 s).mp hs
    exact row_mTie_empty s (by omega) (by omega))]
  decide

lemma ThreadTrace_mTie_1 : ThreadTrace mTie 2 1 = [[3000, 3001]] := by
  unfold ThreadTrace
  rw [show (1 : Nat) * nodesPerThread 2 = 2048 from rfl,
    show threadEndNode 2 1 = 4096 from rfl]
  rw [show rangeFromTo 2048 4096 =
      rangeFromTo 2048 3000 ++ (rangeFromTo 3000 3001 ++ rangeFromTo 3001 4096) by
    rw [rangeFromTo_append 3000 3001 4096 (by omega) (by omega)]
    rw [rangeFromTo_append 2048 3000 4096 (by omega) (by omega)]]
  rw [List.flatMap_append, List.flatMap_append]
  rw [flatMap_StartTrace_skip mTie (rangeFromTo 2048 3000) (fun s hs => by
    have := (mem_rangeFromTo 2048 3000 s).mp hs
    exact row_mTie_empty s (by omega) (by omega))]
  rw [flatMap_StartTrace_skip mTie (rangeFromTo 3001 4096) (fun s hs => by
    have := (mem_rangeFromTo 3001 4096 s).mp hs
    exact row_mTie_empty s (by omega) (by omega))]
  rw [List.nil_append, List.append_nil]
  decide

lemma ThreadTraces_mTie : ThreadTraces mTie 2 = [[[1, 2]], [[3000, 3001]]] := by
  unfold ThreadTraces
  rw [show List.range 2 = [0, 1] from rfl]
  simp only [List.map_cons, List.map_nil]
  rw [ThreadTrace_mTie_0, ThreadTrace_mTie_1]

lemma parRes_tie_left : ParDFSResult mTie 2 [1, 2] := by
  refine ⟨[[1, 2], [3000, 3001]], ?_, by decide⟩
  rw [ThreadTraces_mTie]
  refine IsInterleaving.step [[[1, 2]], [[3000, 3001]]] 0 [1, 2] []
    [[3000, 3001]] rfl ?_
  refine IsInterleaving.step [[], [[3000, 3001]]] 1 [3000, 3001] [] [] rfl ?_
  exact IsInterleaving.nil [[], []] (by decide)

lemma parRes_tie_right : ParDFSResult mTie 2 [3000, 3001] := by
  refine ⟨[[3000, 3001], [1, 2]], ?_, by decide⟩
  rw [ThreadTraces_mTie]
  refine IsInterleaving.step [[[1, 2]], [[3000, 3001]]] 1 [3000, 3001] []
    [[1, 2]] rfl ?_
  refine IsInterleaving.step [[[1, 2]], []] 0 [1, 2] [] [] rfl ?_
  exact IsInterleaving.nil [[], []] (by decide)

/-- C9 counterexample: `tieData` derives (via §4.6) the two equal-length
chains `1 → 2` and `3000 → 3001`, one per worker range when `nThreads = 2`;
two admissible mutex serialisations of the same run return different node
sequences — and hence different serialised bytes to hash — so the observable
result of the parallel search, and the path hash compared during validate,
is not a pure function of the graph. -/
theorem parallel_dfs_nondeterminism :
    CGraph.UpdateGraphFromData tieData = some mTie ∧
    ParDFSResult mTie 2 [1, 2] ∧ ParDFSResult mTie 2 [3000, 3001] ∧
    [1, 2] ≠ [3000, 3001] ∧ serLE [1, 2] ≠ serLE [3000, 3001] :=
  ⟨by decide, parRes_tie_left, parRes_tie_right, by decide, by decide⟩

/-- C9 amended witness: the equal-length theorem applied to the two concrete
schedules of the tie graph. -/
theorem parallel_dfs_length_witness : ([1, 2] : List Nat).length =
    ([3000, 3001] : List Nat).length :=
  parallel_dfs_length mTie 2 2 [1, 2] [3000, 3001] (by decide) (by decide)
    parRes_tie_left parRes_tie_right
